import Mathlib

/-
Verification of the squashmerge patch-apply pipeline (src/squashmerge.c,
src/compressor.c, src/util.c) against its natural-language specification.

The C code is shallowly embedded: machine `size_t` arithmetic is modelled as
`Nat` with explicit reduction modulo `2 ^ 64`, memory-mapped files are modelled
as a length together with a byte function `Nat → Nat`, pointers returned by
`mmap_read` are modelled as offsets, and foreign codec library calls
(LZO / LZ4) are abstracted as parameters, since only the dispatch logic of
`compressor.c` is under verification.
-/

set_option autoImplicit false

namespace Squashmerge

/-- Modulus of `size_t` arithmetic (the code targets LP64, `size_t` = 64 bit). -/
def SZ : Nat := 2 ^ 64

/-- Wrapping `size_t` addition, as performed by `offset + length` in C. -/
def size_t_add (a b : Nat) : Nat := (a + b) % SZ

/-- Wrapping `size_t` subtraction, as performed by `a - b` in C
(arguments are themselves `size_t` values, i.e. already below `SZ`). -/
def size_t_sub (a b : Nat) : Nat := (SZ + a - b % SZ) % SZ

/-- Model of `struct mmap_file` (util.h): a mapped file is its byte length
plus the byte content of the mapping.  The `fd` and the raw pointer are not
modelled; a pointer into the mapping is represented by its byte offset. -/
structure mmap_file where
  length : Nat
  data : Nat → Nat

/-- Model of `mmap_read` (util.c:167-178): the bounds check computes
`offset + length` in wrapping `size_t` arithmetic and compares it against
`f->length`; on success the returned pointer is `f->data + offset`,
modelled as `some offset`. -/
def mmap_read (f : mmap_file) (offset length : Nat) : Option Nat :=
  if size_t_add offset length > f.length then none else some offset

/-- A 10-byte file used to exhibit the wrap-around behaviour of the
`mmap_read` bounds check. -/
def wrapFile : mmap_file := ⟨10, fun _ => 0⟩

theorem size_t_add_eq_of_lt {a b : Nat} (h : a + b < SZ) : size_t_add a b = a + b := by
  simpa [size_t_add] using Nat.mod_eq_of_lt h

theorem size_t_sub_eq_of_le {a b : Nat} (hab : a ≤ b) (hb : b < SZ) :
    size_t_sub b a = b - a := by
  have ha : a % SZ = a := Nat.mod_eq_of_lt (Nat.lt_of_le_of_lt hab hb)
  have h1 : SZ + b - a = SZ + (b - a) := by omega
  have h2 : (SZ + (b - a)) % SZ = (b - a) % SZ := Nat.add_mod_left SZ (b - a)
  have h3 : (b - a) % SZ = b - a := Nat.mod_eq_of_lt (by omega)
  simp [size_t_sub, ha, h1, h2, h3]

/-- Claim C9: the `mmap_read` bounds check `offset + length > f->length` is
computed in wrapping `size_t` arithmetic, so a pointer is returned exactly
when the wrapped sum is within the file; for a concrete offset/length pair
whose true sum exceeds the file length but wraps around `2 ^ 64`, the check
passes and the returned pointer (offset `2 ^ 64 - 1`) lies past the file. -/
theorem c9_mmap_read_wrap :
    (∀ (f : mmap_file) (offset length : Nat),
        mmap_read f offset length ≠ none ↔ size_t_add offset length ≤ f.length) ∧
    (SZ - 1 + 2 > wrapFile.length ∧
      mmap_read wrapFile (SZ - 1) 2 = some (SZ - 1) ∧
      SZ - 1 > wrapFile.length) := by
  constructor
  · intro f offset length
    unfold mmap_read
    split
    · rename_i h
      simp [Nat.not_le.mpr h]
    · rename_i h
      simp [Nat.not_lt.mp h]
  · refine ⟨by decide, ?_, by decide⟩
    have h : size_t_add (SZ - 1) 2 = 1 := by decide
    simp [mmap_read, h, wrapFile]

/-- Big-endian 32-bit decode of the four bytes stored at `off`, i.e. the value
`ntohl` yields for the on-wire word there (memory holds bytes, hence `% 256`). -/
def ntohl_at (f : mmap_file) (off : Nat) : Nat :=
  f.data off % 256 * 0x1000000 + f.data (off + 1) % 256 * 0x10000 +
    f.data (off + 2) % 256 * 0x100 + f.data (off + 3) % 256

/-- Model of `struct sqdelta_header` (squashmerge.c:37-43), fields already
`ntohl`-decoded as in the `out` value built by `read_sqdelta_header`. -/
structure sqdelta_header where
  magic : Nat
  flags : Nat
  compression : Nat
  block_count : Nat

/-- The expected patch magic `0x5371ceb4` (squashmerge.c:46). -/
def sqdelta_magic : Nat := 0x5371ceb4

/-- Model of `read_sqdelta_header` (squashmerge.c:48-81).  `out.magic` starts
at 0 and is set to `sqdelta_magic` only after all checks pass; fields of the C
struct that are never assigned before an early return are modelled as 0. -/
def read_sqdelta_header (f : mmap_file) (offset : Nat) : sqdelta_header :=
  match mmap_read f offset 16 with
  | none => ⟨0, 0, 0, 0⟩
  | some h =>
    if ntohl_at f h ≠ sqdelta_magic then ⟨0, 0, 0, 0⟩
    else if ntohl_at f (h + 4) ≠ 0 then ⟨0, ntohl_at f (h + 4), 0, 0⟩
    else ⟨sqdelta_magic, ntohl_at f (h + 4), ntohl_at f (h + 8), ntohl_at f (h + 12)⟩

/-- Claim C5: `read_sqdelta_header` succeeds (nonzero `magic` in the result)
iff the 16 header bytes pass the `mmap_read` bounds check, the decoded magic
equals `0x5371ceb4` and the decoded flags word is 0; on success the returned
`compression` and `block_count` are the `ntohl`-decoded on-wire fields (and
every failure leaves the sentinel `magic = 0`, which is the negation of the
left side of the equivalence). -/
theorem c5_read_sqdelta_header_spec (f : mmap_file) (offset : Nat) :
    ((read_sqdelta_header f offset).magic ≠ 0 ↔
      (size_t_add offset 16 ≤ f.length ∧ ntohl_at f offset = sqdelta_magic ∧
        ntohl_at f (offset + 4) = 0)) ∧
    ((read_sqdelta_header f offset).magic ≠ 0 →
      (read_sqdelta_header f offset).compression = ntohl_at f (offset + 8) ∧
        (read_sqdelta_header f offset).block_count = ntohl_at f (offset + 12)) := by
  have hmagic : sqdelta_magic ≠ 0 := by decide
  by_cases hb : size_t_add offset 16 > f.length
  · simp [read_sqdelta_header, mmap_read, hb, Nat.not_le.mpr hb]
  · by_cases hm : ntohl_at f offset = sqdelta_magic
    · by_cases hf : ntohl_at f (offset + 4) = 0
      · simp [read_sqdelta_header, mmap_read, hb, hm, hf, hmagic, Nat.not_lt.mp hb]
      · simp [read_sqdelta_header, mmap_read, hb, hm, hf]
    · simp [read_sqdelta_header, mmap_read, hb, hm]

/-- A concrete 16-byte patch file holding a valid sqdelta header with
`compression = 7` and `block_count = 2`. -/
def hdrFile : mmap_file :=
  ⟨16, fun j => [0x53, 0x71, 0xce, 0xb4, 0, 0, 0, 0, 0, 0, 0, 7, 0, 0, 0, 2].getD j 0⟩

/-- Witness for C5 at a concrete valid header. -/
theorem c5_read_sqdelta_header_witness :
    (read_sqdelta_header hdrFile 0).magic ≠ 0 ∧
      (read_sqdelta_header hdrFile 0).compression = ntohl_at hdrFile (0 + 8) ∧
      (read_sqdelta_header hdrFile 0).block_count = ntohl_at hdrFile (0 + 12) :=
  ⟨by decide, (c5_read_sqdelta_header_spec hdrFile 0).2 (by decide)⟩

/-- Value of `COMP_ID_MASK` (compressor.c:27): `0xff << 24`. -/
def COMP_ID_MASK : Nat := 0xff000000

/-- Value of `COMP_ID_LZO` (compressor.c:25): `0x01 << 24`. -/
def COMP_ID_LZO : Nat := 0x01000000

/-- Value of `COMP_ID_LZ4` (compressor.c:26): `0x02 << 24`. -/
def COMP_ID_LZ4 : Nat := 0x02000000

/-- Model of `compressor_init` (compressor.c:52-103) with both codecs enabled
at build time; the outcome of `lzo_init()` is a parameter.  Note the
`default:` branch of the C switch prints its diagnostic and then falls
through to the final `return 1`. -/
def compressor_init (lzo_init_ok : Bool) (c : Nat) : Nat :=
  if c &&& COMP_ID_MASK = COMP_ID_LZO then
    if c &&& 0xf < 0x1 ∨ 0x9 < c &&& 0xf then 0
    else if (c &&& 0xfffff0) &&& 0xffffffef ≠ 0 then 0
    else if lzo_init_ok then 1 else 0
  else if c &&& COMP_ID_MASK = COMP_ID_LZ4 then
    if (c &&& 0xffffff) &&& 0xfffffffe ≠ 0 then 0 else 1
  else 1

/-- Claim C3 (code bug): for a selector whose codec ID byte is neither
`0x01` nor `0x02` (e.g. `0x03000000`), `compressor_init` prints the
"Unknown compressor" diagnostic but then returns 1 (success), because the
`default:` case of the switch lacks a `return 0` and falls through to the
final `return 1`; the spec requires an error return. -/
theorem c3_unknown_compressor_accepted :
    (∀ b : Bool, compressor_init b 0x03000000 = 1) ∧
      compressor_init true 0x03000000 ≠ 0 := by
  constructor
  · intro b
    cases b <;> decide
  · decide

/-- The foreign codec library calls made by `compressor_compress` and
`compressor_decompress`, abstracted over the data bytes (only sizes and
success are observable in the dispatch layer): `lzo999` is
`lzo1x_999_compress_level` (algorithm level, input length, output capacity ↦
produced size or failure), `lzoOpt` is `lzo1x_optimize` (compressed size,
input length ↦ reported original size or failure), `bound` is
`LZ4_compressBound`, `lz4c` is `LZ4_compress_HC` / `LZ4_compress_default`
(HC?, input length, capacity ↦ produced size, 0 on failure), `lzoDec` is
`lzo1x_decompress_safe` and `lz4d` is `LZ4_decompress_safe` (C `int`). -/
structure codec_env where
  lzo999 : Nat → Nat → Nat → Option Nat
  lzoOpt : Nat → Nat → Option Nat
  bound : Nat → Nat
  lz4c : Bool → Nat → Nat → Nat
  lzoDec : Nat → Nat → Option Nat
  lz4d : Nat → Nat → Int

/-- Model of `compressor_compress` (compressor.c:105-216), LZ4 path in its
`LZA4HC_CLEVEL_MAX` (new liblz4) variant; data buffers are abstracted away,
`length` is the input size and `out_size` the destination capacity. -/
def compressor_compress (env : codec_env) (c : Nat) (length out_size : Nat) : Nat :=
  if c &&& COMP_ID_MASK = COMP_ID_LZO then
    match env.lzo999 (c &&& 0xf) length out_size with
    | none => 0
    | some out_bytes =>
      match (if c &&& 0x10 ≠ 0 then env.lzoOpt out_bytes length else some length) with
      | none => 0
      | some orig_size => if orig_size ≠ length then 0 else out_bytes
  else if c &&& COMP_ID_MASK = COMP_ID_LZ4 then
    let out_bytes := env.lz4c (c &&& 0x1 ≠ 0) length (env.bound length)
    if out_bytes = 0 then 0
    else if out_bytes > length then 0
    else out_bytes
  else 0

/-- Model of `compressor_decompress` (compressor.c:218-259). -/
def compressor_decompress (env : codec_env) (c : Nat) (length out_size : Nat) : Nat :=
  if c &&& COMP_ID_MASK = COMP_ID_LZO then
    match env.lzoDec length out_size with
    | none => 0
    | some out_bytes => out_bytes
  else if c &&& COMP_ID_MASK = COMP_ID_LZ4 then
    let r := env.lz4d length out_size
    if r < 0 then 0 else r.toNat
  else 0

/-- Claim C10: for every selector whose codec ID byte is neither `0x01` (LZO)
nor `0x02` (LZ4), both `compressor_compress` and `compressor_decompress`
fall past both switch cases and return the failure sentinel 0, for every
codec backend and all sizes — independently of `compressor_init`'s verdict. -/
theorem c10_unknown_codec_zero (env : codec_env) (c length out_size : Nat)
    (h1 : c &&& COMP_ID_MASK ≠ COMP_ID_LZO) (h2 : c &&& COMP_ID_MASK ≠ COMP_ID_LZ4) :
    compressor_compress env c length out_size = 0 ∧
      compressor_decompress env c length out_size = 0 := by
  constructor
  · simp [compressor_compress, h1, h2]
  · simp [compressor_decompress, h1, h2]

/-- A degenerate codec backend used to instantiate C10's witness. -/
def env0 : codec_env := ⟨fun _ _ _ => none, fun _ _ => none, fun n => n, fun _ _ _ => 0,
  fun _ _ => none, fun _ _ => 0⟩

/-- Witness for C10 at the concrete unknown selector `0x03000000`. -/
theorem c10_unknown_codec_witness :
    compressor_compress env0 0x03000000 100 50 = 0 ∧
      compressor_decompress env0 0x03000000 100 50 = 0 :=
  c10_unknown_codec_zero env0 0x03000000 100 50 (by decide) (by decide)

/-- Model of the exit code computed by `main` (squashmerge.c:475-602).
`ret` is initialized to 1 and is never assigned again on any path: every
failing step merely `break`s out of its `do { } while (0)` ladder (or
`return 1`s directly), and on the success path the result of
`squash_target_file` is discarded, so the final `return ret` yields 1 in
every case.  Each parameter is the outcome of one pipeline step, in program
order. -/
def main_exit_code (argc_ok src_ok patch_ok hdr_ok blocks_ok tgt_ok chdir_ok
    expand_ok seek_ok xdelta_ok map_ok squash_ok : Bool) : Nat :=
  if !argc_ok then 1
  else if !src_ok then 1
  else if !patch_ok then 1
  else if !hdr_ok then 1
  else if !blocks_ok then 1
  else if !tgt_ok then 1
  else if !chdir_ok then 1
  else if !expand_ok then 1
  else if !seek_ok then 1
  else if !xdelta_ok then 1
  else if !map_ok then 1
  else if !squash_ok then 1
  else 1

/-- Claim C1 (code bug): the process exit code is 1 no matter which steps of
the pipeline succeed — in particular a run in which every step succeeds still
exits 1, where the spec requires 0, because `main` never sets `ret` to 0. -/
theorem c1_main_exit_code_always_one :
    (∀ a b c d e f g h i j k l : Bool,
        main_exit_code a b c d e f g h i j k l = 1) ∧
      main_exit_code true true true true true true true true true true true true ≠ 0 := by
  constructor
  · intro a b c d e f g h i j k l
    cases a <;> cases b <;> cases c <;> cases d <;> cases e <;> cases f <;>
      simp [main_exit_code]
  · decide

/-- Model of `struct compressed_block` (squashmerge.c:30-35) with the three
fields already `ntohl`-decoded (as the code does at every use site). -/
structure compressed_block where
  offset : Nat
  length : Nat
  uncompressed_length : Nat

/-- Default block used for out-of-range list reads. -/
def dblk : compressed_block := ⟨0, 0, 0⟩

/-- Model of the scratch-size computation in `main` (squashmerge.c:552-560):
`tmp_length` starts at 0 and accumulates `source_f.length`, `sizeof(dh)`
(16), `block_list_size` (`sizeof(struct compressed_block) * block_count`,
i.e. `12 * block_count` in `size_t`), then each decoded
`uncompressed_length` in a loop — all in wrapping `size_t` arithmetic.
`mmap_create_temp` (util.c:62-97) then truncates the scratch file to exactly
this many bytes. -/
def tmp_length_of (srcLen : Nat) (blocks : List compressed_block) : Nat :=
  blocks.foldl (fun acc b => size_t_add acc b.uncompressed_length)
    (size_t_add (size_t_add (size_t_add 0 srcLen) 16) (12 * blocks.length % SZ))

theorem foldl_size_t_add_unc (blocks : List compressed_block) :
    ∀ acc : Nat,
      acc + (blocks.map (fun b => b.uncompressed_length)).sum < SZ →
      blocks.foldl (fun a b => size_t_add a b.uncompressed_length) acc =
        acc + (blocks.map (fun b => b.uncompressed_length)).sum := by
  induction blocks with
  | nil => intro acc _; simp
  | cons b rest ih =>
    intro acc h
    simp only [List.map_cons, List.sum_cons] at h
    have h1 : acc + b.uncompressed_length < SZ := by omega
    simp only [List.foldl_cons, List.map_cons, List.sum_cons]
    rw [size_t_add_eq_of_lt h1, ih (acc + b.uncompressed_length) (by omega)]
    omega

/-- Claim C7: whenever the total does not overflow `size_t`, the scratch file
size computed by `main` is exactly
`source.length + sizeof(sqdelta_header) + 12 * block_count + Σ uncompressed_length`. -/
theorem c7_tmp_length (srcLen : Nat) (blocks : List compressed_block)
    (h : srcLen + 16 + 12 * blocks.length +
        (blocks.map (fun b => b.uncompressed_length)).sum < SZ) :
    tmp_length_of srcLen blocks =
      srcLen + 16 + 12 * blocks.length +
        (blocks.map (fun b => b.uncompressed_length)).sum := by
  unfold tmp_length_of
  have h0 : size_t_add 0 srcLen = srcLen := by
    rw [size_t_add_eq_of_lt (by omega)]; omega
  have h1 : size_t_add srcLen 16 = srcLen + 16 := size_t_add_eq_of_lt (by omega)
  have hb : 12 * blocks.length % SZ = 12 * blocks.length := Nat.mod_eq_of_lt (by omega)
  have h2 : size_t_add (srcLen + 16) (12 * blocks.length) =
      srcLen + 16 + 12 * blocks.length := size_t_add_eq_of_lt (by omega)
  rw [h0, h1, hb, h2, foldl_size_t_add_unc blocks _ (by omega)]

/-- Witness for C7 at a concrete two-block table. -/
theorem c7_tmp_length_witness :
    tmp_length_of 100 [⟨0, 1, 2⟩, ⟨5, 1, 3⟩] = 145 :=
  c7_tmp_length 100 [⟨0, 1, 2⟩, ⟨5, 1, 3⟩] (by decide)

/-- Model of one `memcpy(out_pos, in_pos, len)` of `expand_input`, where both
pointers sit at the same offset `off` of their files: bytes `[off, off + len)`
of `f` are overwritten with the corresponding bytes of `src`. -/
def write_bytes (f : mmap_file) (src : Nat → Nat) (off len : Nat) : mmap_file :=
  ⟨f.length, fun j => if off ≤ j ∧ j < off + len then src j else f.data j⟩

/-- Model of the per-block gap-copy loop of `expand_input`
(squashmerge.c:241-256): for each block the verbatim gap
`[prev_offset, offset)` is copied from source to scratch at the same offset
(after the two `mmap_read` bounds checks on a length computed by `size_t`
subtraction), and `prev_offset` advances to `offset + length`, skipping the
compressed payload. -/
def expand_copy_loop (src : mmap_file) :
    List compressed_block → Nat → mmap_file → Option (mmap_file × Nat)
  | [], prev, tmp => some (tmp, prev)
  | b :: rest, prev, tmp =>
    if (mmap_read src prev (size_t_sub b.offset prev)).isSome ∧
        (mmap_read tmp prev (size_t_sub b.offset prev)).isSome then
      expand_copy_loop src rest (size_t_add b.offset b.length)
        (write_bytes tmp src.data prev (size_t_sub b.offset prev))
    else none

/-- Model of the verbatim-copy phase of `expand_input`
(squashmerge.c:238-271): the gap loop followed by the tail copy
`[prev_offset, source_f->length)`, after which `prev_offset` is set to
`source_f->length`.  The later phases (worker-pool decompression and the
metadata append) write only at offsets at or beyond `source_f->length`. -/
def expand_input_copy (src : mmap_file) (tmp : mmap_file)
    (blocks : List compressed_block) : Option (mmap_file × Nat) :=
  match expand_copy_loop src blocks 0 tmp with
  | none => none
  | some (t, prev) =>
    if (mmap_read src prev (size_t_sub src.length prev)).isSome ∧
        (mmap_read t prev (size_t_sub src.length prev)).isSome then
      some (write_bytes t src.data prev (size_t_sub src.length prev), src.length)
    else none

/-- Where `prev_offset` stands after the gap loop has consumed every block of
the chain, starting from `prev`. -/
def endOff : Nat → List compressed_block → Nat
  | prev, [] => prev
  | _, b :: rest => endOff (b.offset + b.length) rest

/-- The offset `j` lies in one of the verbatim gaps `[prev_end, offset)`
encountered while walking the block chain from `prev`. -/
def gapIn : Nat → List compressed_block → Nat → Prop
  | _, [], _ => False
  | prev, b :: rest, j =>
    (prev ≤ j ∧ j < b.offset) ∨ gapIn (b.offset + b.length) rest j

/-- Well-formed block chain starting at `prev`: every block starts at or
after the end of its predecessor and the chain ends inside the source file
(the descriptor-list invariant stated in the spec's data model). -/
def chainWF (srcLen : Nat) : Nat → List compressed_block → Bool
  | prev, [] => decide (prev ≤ srcLen)
  | prev, b :: rest =>
    decide (prev ≤ b.offset) && chainWF srcLen (b.offset + b.length) rest

/-- The offset `j` lies inside the compressed payload of one of the blocks. -/
def inPayload (blocks : List compressed_block) (j : Nat) : Prop :=
  ∃ b ∈ blocks, b.offset ≤ j ∧ j < b.offset + b.length

theorem chainWF_le (srcLen : Nat) :
    ∀ (blocks : List compressed_block) (prev : Nat),
      chainWF srcLen prev blocks = true →
      prev ≤ endOff prev blocks ∧ endOff prev blocks ≤ srcLen := by
  intro blocks
  induction blocks with
  | nil =>
    intro prev h
    simp only [chainWF, decide_eq_true_eq] at h
    simp [endOff, h]
  | cons b rest ih =>
    intro prev h
    simp only [chainWF, Bool.and_eq_true, decide_eq_true_eq] at h
    obtain ⟨h1, h2⟩ := h
    have h3 := ih (b.offset + b.length) h2
    simp only [endOff]
    omega

theorem gapIn_bounds (srcLen : Nat) :
    ∀ (blocks : List compressed_block) (prev j : Nat),
      chainWF srcLen prev blocks = true → gapIn prev blocks j →
      prev ≤ j ∧ j < endOff prev blocks := by
  intro blocks
  induction blocks with
  | nil =>
    intro prev j _ hg
    exact absurd hg (by simp [gapIn])
  | cons b rest ih =>
    intro prev j hc hg
    simp only [chainWF, Bool.and_eq_true, decide_eq_true_eq] at hc
    obtain ⟨h1, h2⟩ := hc
    have hle := chainWF_le srcLen rest (b.offset + b.length) h2
    simp only [gapIn] at hg
    simp only [endOff]
    cases hg with
    | inl h => omega
    | inr h =>
      have h3 := ih (b.offset + b.length) j h2 h
      omega

theorem inPayload_cases (srcLen : Nat) :
    ∀ (blocks : List compressed_block) (prev j : Nat),
      chainWF srcLen prev blocks = true → inPayload blocks j →
      prev ≤ j ∧ j < endOff prev blocks ∧ ¬ gapIn prev blocks j := by
  intro blocks
  induction blocks with
  | nil =>
    intro prev j _ hp
    simp [inPayload] at hp
  | cons b rest ih =>
    intro prev j hc hp
    simp only [chainWF, Bool.and_eq_true, decide_eq_true_eq] at hc
    obtain ⟨h1, h2⟩ := hc
    have hle := chainWF_le srcLen rest (b.offset + b.length) h2
    simp only [endOff]
    obtain ⟨b', hb', hb1, hb2⟩ := hp
    rcases List.mem_cons.mp hb' with hbeq | hbrest
    · rw [hbeq] at hb1 hb2
      refine ⟨by omega, by omega, ?_⟩
      simp only [gapIn]
      rintro (h | h)
      · omega
      · have := gapIn_bounds srcLen rest (b.offset + b.length) j h2 h
        omega
    · have h3 := ih (b.offset + b.length) j h2 ⟨b', hbrest, hb1, hb2⟩
      refine ⟨by omega, h3.2.1, ?_⟩
      simp only [gapIn]
      rintro (h | h)
      · omega
      · exact h3.2.2 h

theorem not_inPayload_cover (srcLen : Nat) :
    ∀ (blocks : List compressed_block) (prev j : Nat),
      chainWF srcLen prev blocks = true → prev ≤ j → ¬ inPayload blocks j →
      gapIn prev blocks j ∨ endOff prev blocks ≤ j := by
  intro blocks
  induction blocks with
  | nil =>
    intro prev j _ hj _
    simp only [endOff]
    omega
  | cons b rest ih =>
    intro prev j hc hj hp
    simp only [chainWF, Bool.and_eq_true, decide_eq_true_eq] at hc
    obtain ⟨h1, h2⟩ := hc
    simp only [gapIn, endOff]
    by_cases hlt : j < b.offset
    · exact Or.inl (Or.inl ⟨hj, hlt⟩)
    · have hout : ¬ (b.offset ≤ j ∧ j < b.offset + b.length) := by
        intro hin
        exact hp ⟨b, List.mem_cons_self b rest, hin⟩
      have hge : b.offset + b.length ≤ j := by omega
      have hrest : ¬ inPayload rest j := by
        intro ⟨b', hb', hin⟩
        exact hp ⟨b', List.mem_cons_of_mem b hb', hin⟩
      rcases ih (b.offset + b.length) j h2 hge hrest with h | h
      · exact Or.inl (Or.inr h)
      · exact Or.inr h

theorem expand_copy_loop_spec (src : mmap_file) :
    ∀ (blocks : List compressed_block) (prev : Nat) (tmp : mmap_file),
      chainWF src.length prev blocks = true →
      src.length ≤ tmp.length → tmp.length < SZ →
      ∃ t : mmap_file,
        expand_copy_loop src blocks prev tmp = some (t, endOff prev blocks) ∧
        t.length = tmp.length ∧
        (∀ j, gapIn prev blocks j → t.data j = src.data j) ∧
        (∀ j, ¬ gapIn prev blocks j → t.data j = tmp.data j) := by
  intro blocks
  induction blocks with
  | nil =>
    intro prev tmp _ _ _
    exact ⟨tmp, rfl, rfl, fun j hg => absurd hg (by simp [gapIn]), fun _ _ => rfl⟩
  | cons b rest ih =>
    intro prev tmp hc hlen hsz
    simp only [chainWF, Bool.and_eq_true, decide_eq_true_eq] at hc
    obtain ⟨h1, h2⟩ := hc
    have hle := chainWF_le src.length rest (b.offset + b.length) h2
    have hboff : b.offset < SZ := by omega
    have hsub : size_t_sub b.offset prev = b.offset - prev :=
      size_t_sub_eq_of_le h1 hboff
    have hadd : size_t_add prev (b.offset - prev) = b.offset := by
      unfold size_t_add
      rw [show prev + (b.offset - prev) = b.offset by omega]
      exact Nat.mod_eq_of_lt hboff
    have hrd1 : mmap_read src prev (b.offset - prev) = some prev := by
      unfold mmap_read
      rw [hadd, if_neg (by omega)]
    have hrd2 : mmap_read tmp prev (b.offset - prev) = some prev := by
      unfold mmap_read
      rw [hadd, if_neg (by omega)]
    have hnext : size_t_add b.offset b.length = b.offset + b.length :=
      size_t_add_eq_of_lt (by omega)
    obtain ⟨t, heq, hlen', hgap, hngap⟩ :=
      ih (b.offset + b.length) (write_bytes tmp src.data prev (b.offset - prev))
        h2 hlen hsz
    refine ⟨t, ?_, hlen', ?_, ?_⟩
    · simp only [expand_copy_loop, hsub, hrd1, hrd2, Option.isSome_some, and_self,
        if_true, hnext, endOff]
      exact heq
    · intro j hg
      simp only [gapIn] at hg
      rcases hg with hhead | htail
      · by_cases hg' : gapIn (b.offset + b.length) rest j
        · exact hgap j hg'
        · rw [hngap j hg']
          simp only [write_bytes]
          rw [if_pos (by omega)]
      · exact hgap j htail
    · intro j hng
      simp only [gapIn] at hng
      push_neg at hng
      rw [hngap j hng.2]
      simp only [write_bytes]
      rw [if_neg (by omega)]

theorem expand_input_copy_spec (src : mmap_file) (tmpLen : Nat)
    (blocks : List compressed_block)
    (hwf : chainWF src.length 0 blocks = true)
    (h1 : src.length ≤ tmpLen) (h2 : tmpLen < SZ) :
    ∃ t : mmap_file,
      expand_input_copy src ⟨tmpLen, fun _ => 0⟩ blocks = some (t, src.length) ∧
      t.length = tmpLen ∧
      (∀ j, gapIn 0 blocks j → t.data j = src.data j) ∧
      (∀ j, endOff 0 blocks ≤ j → j < src.length → t.data j = src.data j) ∧
      (∀ j, ¬ gapIn 0 blocks j → (j < endOff 0 blocks ∨ src.length ≤ j) →
        t.data j = 0) := by
  obtain ⟨t1, heq, hlen1, hgap, hngap⟩ :=
    expand_copy_loop_spec src blocks 0 ⟨tmpLen, fun _ => 0⟩ hwf h1 h2
  have hlen1' : t1.length = tmpLen := hlen1
  have hle := chainWF_le src.length blocks 0 hwf
  have hsub : size_t_sub src.length (endOff 0 blocks) =
      src.length - endOff 0 blocks :=
    size_t_sub_eq_of_le hle.2 (by omega)
  have hadd : size_t_add (endOff 0 blocks) (src.length - endOff 0 blocks) =
      src.length := by
    unfold size_t_add
    rw [show endOff 0 blocks + (src.length - endOff 0 blocks) = src.length by omega]
    exact Nat.mod_eq_of_lt (by omega)
  have hrd1 : mmap_read src (endOff 0 blocks) (src.length - endOff 0 blocks) =
      some (endOff 0 blocks) := by
    unfold mmap_read
    rw [hadd, if_neg (by omega)]
  have hrd2 : mmap_read t1 (endOff 0 blocks) (src.length - endOff 0 blocks) =
      some (endOff 0 blocks) := by
    unfold mmap_read
    rw [hadd, if_neg (by omega)]
  refine ⟨write_bytes t1 src.data (endOff 0 blocks) (src.length - endOff 0 blocks),
    ?_, hlen1, ?_, ?_, ?_⟩
  · simp only [expand_input_copy, heq, hsub, hrd1, hrd2, Option.isSome_some,
      and_self, if_true]
  · intro j hg
    have hb := gapIn_bounds src.length blocks 0 j hwf hg
    simp only [write_bytes]
    rw [if_neg (by omega)]
    exact hgap j hg
  · intro j hj1 hj2
    simp only [write_bytes]
    rw [if_pos (by omega)]
  · intro j hng hout
    simp only [write_bytes]
    rw [if_neg (by omega)]
    exact hngap j hng

/-- Concrete 3-byte source file `[5, 6, 7]` used for the C2 instances. -/
def srcEx : mmap_file := ⟨3, fun j => [5, 6, 7].getD j 0⟩

/-- Concrete zero-initialized scratch file of 32 bytes. -/
def tmp0Ex : mmap_file := ⟨32, fun _ => 0⟩

/-- Placeholder `mmap_file` used as the default of `Option.getD`. -/
def default_mm : mmap_file := ⟨0, fun _ => 0⟩

/-- Counterexample to claim C2 as stated: on the 3-byte source `[5, 6, 7]`
with a single block of offset 1 and length 1, the expansion copy phase is
accepted, yet the scratch byte in the compressed-payload range `[1, 2)` is 0,
not the source byte 6 — the payload range is skipped, not copied. -/
theorem c2_payload_not_copied_counterexample :
    (expand_input_copy srcEx tmp0Ex [⟨1, 1, 1⟩]).isSome = true ∧
      ((expand_input_copy srcEx tmp0Ex [⟨1, 1, 1⟩]).getD (default_mm, 0)).1.data 1 = 0 ∧
      srcEx.data 1 = 6 := by
  refine ⟨?_, ?_, by decide⟩ <;> decide

/-- Claim C2 as amended: for every well-formed block table accepted by the
pipeline, after the verbatim-copy phase of `expand_input` the gap ranges
before, between and after the blocks hold exactly the source bytes, while the
compressed-payload ranges `[offset, offset + length)` are skipped by the copy
loop and therefore still hold the zero bytes the scratch file was created
with (the later phases write only at or beyond `source.length`). -/
theorem c2_gap_verbatim_payload_zero (src : mmap_file) (tmpLen : Nat)
    (blocks : List compressed_block)
    (hwf : chainWF src.length 0 blocks = true)
    (h1 : src.length ≤ tmpLen) (h2 : tmpLen < SZ) :
    ∃ t : mmap_file,
      expand_input_copy src ⟨tmpLen, fun _ => 0⟩ blocks = some (t, src.length) ∧
      (∀ j, j < src.length → inPayload blocks j → t.data j = 0) ∧
      (∀ j, j < src.length → ¬ inPayload blocks j → t.data j = src.data j) := by
  obtain ⟨t, heq, _, hgap, htail, hzero⟩ :=
    expand_input_copy_spec src tmpLen blocks hwf h1 h2
  refine ⟨t, heq, ?_, ?_⟩
  · intro j _ hp
    have h3 := inPayload_cases src.length blocks 0 j hwf hp
    exact hzero j h3.2.2 (Or.inl h3.2.1)
  · intro j hj hp
    rcases not_inPayload_cover src.length blocks 0 j hwf (Nat.zero_le j) hp with h | h
    · exact hgap j h
    · exact htail j h hj

/-- Witness for the amended C2 at the concrete one-block instance. -/
theorem c2_gap_verbatim_payload_zero_witness :
    ∃ t : mmap_file,
      expand_input_copy srcEx ⟨32, fun _ => 0⟩ [⟨1, 1, 1⟩] = some (t, srcEx.length) ∧
      (∀ j, j < srcEx.length → inPayload [⟨1, 1, 1⟩] j → t.data j = 0) ∧
      (∀ j, j < srcEx.length → ¬ inPayload [⟨1, 1, 1⟩] j → t.data j = srcEx.data j) :=
  c2_gap_verbatim_payload_zero srcEx 32 [⟨1, 1, 1⟩] (by decide) (by decide) (by decide)

/-- Model of the worker task `decompress_blocks` (squashmerge.c:175-230) for
one worker: `rest` is the still-unprocessed suffix of the block table, `i`
the index of its first block, `prev` the running output offset and `acc` the
(reversed) trace of block indices this worker has processed so far.  The
codec call is abstracted by `dec`, the size `compressor_decompress` returns
on block `i`'s data; `prev` advances by `uncompressed_length` for every
block, processed or not, exactly as in the C loop. -/
def decompress_go (dec : Nat → Nat) (src tmp : mmap_file) (T id : Nat) :
    List compressed_block → Nat → Nat → List Nat → Option (Nat × List Nat)
  | [], _, prev, acc => some (prev, acc.reverse)
  | b :: rest, i, prev, acc =>
    if i % T = id then
      if (mmap_read src b.offset b.length).isSome ∧
          (mmap_read tmp prev b.uncompressed_length).isSome then
        if dec i = b.uncompressed_length then
          decompress_go dec src tmp T id rest (i + 1)
            (size_t_add prev b.uncompressed_length) (i :: acc)
        else none
      else none
    else
      decompress_go dec src tmp T id rest (i + 1)
        (size_t_add prev b.uncompressed_length) acc

/-- The full decompression task of worker `id`: the C function starts at
block 0 with the shared `prev_offset` and an empty trace; `none` models the
null (failure) return, `some` carries the final `prev_offset` and the list
of block indices this worker processed. -/
def decompress_blocks (dec : Nat → Nat) (src tmp : mmap_file)
    (blocks : List compressed_block) (T id prev0 : Nat) : Option (Nat × List Nat) :=
  decompress_go dec src tmp T id blocks 0 prev0 []

/-- Model of the worker task `compress_blocks` (squashmerge.c:375-429) for
one worker: the C loop variable `i` runs from `block_count` down to 1 and
processes block `i - 1` (here `n`), decrementing `prev` by that block's
`uncompressed_length` before the `i % no_threads == id` test.  The codec
call is abstracted by `cmp`, the size `compressor_compress` returns on block
`n`'s data. -/
def compress_go (cmp : Nat → Nat) (tgt : mmap_file)
    (blocks : List compressed_block) (T id : Nat) :
    Nat → Nat → List Nat → Option (Nat × List Nat)
  | 0, prev, acc => some (prev, acc)
  | n + 1, prev, acc =>
    if (n + 1) % T = id then
      if (mmap_read tgt (blocks.getD n dblk).offset (blocks.getD n dblk).length).isSome ∧
          (mmap_read tgt (size_t_sub prev (blocks.getD n dblk).uncompressed_length)
            (blocks.getD n dblk).uncompressed_length).isSome then
        if cmp n = (blocks.getD n dblk).length then
          compress_go cmp tgt blocks T id n
            (size_t_sub prev (blocks.getD n dblk).uncompressed_length) (n :: acc)
        else none
      else none
    else
      compress_go cmp tgt blocks T id n
        (size_t_sub prev (blocks.getD n dblk).uncompressed_length) acc

/-- The full reverse-order recompression task of worker `id`, started at
`i = block_count` as in the C function. -/
def compress_blocks (cmp : Nat → Nat) (tgt : mmap_file)
    (blocks : List compressed_block) (T id prev0 : Nat) : Option (Nat × List Nat) :=
  compress_go cmp tgt blocks T id blocks.length prev0 []

/-- Success aggregation of `run_multithreaded` (squashmerge.c:100-173): the
pool joins all `T` workers and its overall result is success iff every
worker returned a non-null value. -/
def run_multithreaded_success {α : Type} (worker : Nat → Option α) (T : Nat) : Bool :=
  (List.range T).all fun id => (worker id).isSome

theorem decompress_go_trace (dec : Nat → Nat) (src tmp : mmap_file) (T id : Nat) :
    ∀ (rest : List compressed_block) (i prev : Nat) (acc : List Nat)
      (r : Nat × List Nat),
      decompress_go dec src tmp T id rest i prev acc = some r →
      r.2 = acc.reverse ++
        (List.range' i rest.length).filter (fun j => decide (j % T = id)) := by
  intro rest
  induction rest with
  | nil =>
    intro i prev acc r h
    simp only [decompress_go] at h
    cases h
    simp
  | cons b rest ih =>
    intro i prev acc r h
    simp only [decompress_go] at h
    by_cases hid : i % T = id
    · rw [if_pos hid] at h
      by_cases hrd : (mmap_read src b.offset b.length).isSome ∧
          (mmap_read tmp prev b.uncompressed_length).isSome
      · rw [if_pos hrd] at h
        by_cases hdec : dec i = b.uncompressed_length
        · rw [if_pos hdec] at h
          have h2 := ih (i + 1) _ (i :: acc) r h
          rw [h2]
          simp [List.range'_succ, List.filter_cons, decide_eq_true hid]
        · rw [if_neg hdec] at h
          exact absurd h (by simp)
      · rw [if_neg hrd] at h
        exact absurd h (by simp)
    · rw [if_neg hid] at h
      have h2 := ih (i + 1) _ acc r h
      rw [h2]
      simp [List.range'_succ, List.filter_cons, decide_eq_false hid]

theorem compress_go_trace (cmp : Nat → Nat) (tgt : mmap_file)
    (blocks : List compressed_block) (T id : Nat) :
    ∀ (n prev : Nat) (acc : List Nat) (r : Nat × List Nat),
      compress_go cmp tgt blocks T id n prev acc = some r →
      r.2 = (List.range n).filter (fun j => decide ((j + 1) % T = id)) ++ acc := by
  intro n
  induction n with
  | zero =>
    intro prev acc r h
    simp only [compress_go] at h
    cases h
    simp
  | succ n ih =>
    intro prev acc r h
    simp only [compress_go] at h
    by_cases hid : (n + 1) % T = id
    · rw [if_pos hid] at h
      by_cases hrd : (mmap_read tgt (blocks.getD n dblk).offset
            (blocks.getD n dblk).length).isSome ∧
          (mmap_read tgt (size_t_sub prev (blocks.getD n dblk).uncompressed_length)
            (blocks.getD n dblk).uncompressed_length).isSome
      · rw [if_pos hrd] at h
        by_cases hcmp : cmp n = (blocks.getD n dblk).length
        · rw [if_pos hcmp] at h
          have h2 := ih _ (n :: acc) r h
          rw [h2, List.range_succ, List.filter_append]
          simp [List.filter_cons, decide_eq_true hid]
        · rw [if_neg hcmp] at h
          exact absurd h (by simp)
      · rw [if_neg hrd] at h
        exact absurd h (by simp)
    · rw [if_neg hid] at h
      have h2 := ih _ acc r h
      rw [h2, List.range_succ, List.filter_append]
      simp [List.filter_cons, decide_eq_false hid]

theorem compress_go_some_sizes (cmp : Nat → Nat) (tgt : mmap_file)
    (blocks : List compressed_block) (T id : Nat) :
    ∀ (n prev : Nat) (acc : List Nat) (r : Nat × List Nat),
      compress_go cmp tgt blocks T id n prev acc = some r →
      ∀ m, m < n → (m + 1) % T = id → cmp m = (blocks.getD m dblk).length := by
  intro n
  induction n with
  | zero =>
    intro _ _ _ _ m hm _
    omega
  | succ n ih =>
    intro prev acc r h m hm hmid
    simp only [compress_go] at h
    by_cases hid : (n + 1) % T = id
    · rw [if_pos hid] at h
      by_cases hrd : (mmap_read tgt (blocks.getD n dblk).offset
            (blocks.getD n dblk).length).isSome ∧
          (mmap_read tgt (size_t_sub prev (blocks.getD n dblk).uncompressed_length)
            (blocks.getD n dblk).uncompressed_length).isSome
      · rw [if_pos hrd] at h
        by_cases hcmp : cmp n = (blocks.getD n dblk).length
        · rw [if_pos hcmp] at h
          by_cases hmn : m = n
          · rw [hmn]
            exact hcmp
          · exact ih _ _ r h m (by omega) hmid
        · rw [if_neg hcmp] at h
          exact absurd h (by simp)
      · rw [if_neg hrd] at h
        exact absurd h (by simp)
    · rw [if_neg hid] at h
      by_cases hmn : m = n
      · rw [hmn] at hmid
        exact absurd hmid hid
      · exact ih _ _ r h m (by omega) hmid

theorem decompress_go_some_sizes (dec : Nat → Nat) (src tmp : mmap_file) (T id : Nat) :
    ∀ (rest : List compressed_block) (i prev : Nat) (acc : List Nat)
      (r : Nat × List Nat),
      decompress_go dec src tmp T id rest i prev acc = some r →
      ∀ k, k < rest.length → (i + k) % T = id →
        dec (i + k) = (rest.getD k dblk).uncompressed_length := by
  intro rest
  induction rest with
  | nil =>
    intro _ _ _ _ _ k hk _
    simp at hk
  | cons b rest ih =>
    intro i prev acc r h k hk hkid
    simp only [decompress_go] at h
    by_cases hid : i % T = id
    · rw [if_pos hid] at h
      by_cases hrd : (mmap_read src b.offset b.length).isSome ∧
          (mmap_read tmp prev b.uncompressed_length).isSome
      · rw [if_pos hrd] at h
        by_cases hdec : dec i = b.uncompressed_length
        · rw [if_pos hdec] at h
          cases k with
          | zero => simpa using hdec
          | succ k' =>
            have hk' : k' < rest.length := by simpa using hk
            have hkid' : (i + 1 + k') % T = id := by
              rw [show i + 1 + k' = i + (k' + 1) by omega]
              exact hkid
            have h3 := ih (i + 1) _ (i :: acc) r h k' hk' hkid'
            rw [show i + (k' + 1) = i + 1 + k' by omega]
            simpa using h3
        · rw [if_neg hdec] at h
          exact absurd h (by simp)
      · rw [if_neg hrd] at h
        exact absurd h (by simp)
    · rw [if_neg hid] at h
      cases k with
      | zero => exact absurd (by simpa using hkid) hid
      | succ k' =>
        have hk' : k' < rest.length := by simpa using hk
        have hkid' : (i + 1 + k') % T = id := by
          rw [show i + 1 + k' = i + (k' + 1) by omega]
          exact hkid
        have h3 := ih (i + 1) _ acc r h k' hk' hkid'
        rw [show i + (k' + 1) = i + 1 + k' by omega]
        simpa using h3

/-- Concrete two-block table used in the C4 instances. -/
def blksEx : List compressed_block := [⟨0, 1, 1⟩, ⟨2, 1, 1⟩]

/-- Concrete 10-byte file used as source/scratch/target in worker instances. -/
def tgtEx : mmap_file := ⟨10, fun _ => 0⟩

/-- Codec stand-in whose compressed output always has size 1 (matching
`blksEx`'s declared lengths). -/
def cmpEx : Nat → Nat := fun _ => 1

/-- Codec stand-in whose decompressed output always has size 1 (matching
`blksEx`'s declared uncompressed lengths). -/
def decEx : Nat → Nat := fun _ => 1

/-- Counterexample to claim C4 as stated: with 2 blocks and 2 workers, the
recompression worker 0 completes successfully having processed exactly block
index 1 (its trace is `[1]`), whereas the claimed partition `i mod T == k`
would have worker 0 process block 0 — the loop tests the 1-based countdown
variable, not the 0-based block index. -/
theorem c4_compress_partition_counterexample :
    compress_blocks cmpEx tgtEx blksEx 2 0 2 = some (0, [1]) ∧
      ([1] : List Nat) ≠ (List.range 2).filter (fun j => decide (j % 2 = 0)) := by
  constructor <;> decide

/-- Claim C4 as amended: on every successful worker run, the decompression
worker `id` processes exactly the blocks whose 0-based index `i` satisfies
`i mod T = id`, while the recompression worker `id` processes exactly the
blocks whose 0-based index `i` satisfies `(i + 1) mod T = id` (the reverse
loop tests its 1-based countdown variable against the thread number). -/
theorem c4_worker_partition (dec cmp : Nat → Nat) (src tmp tgt : mmap_file)
    (blocks : List compressed_block) (T id prev0 prev1 : Nat)
    (r s : Nat × List Nat) :
    (decompress_blocks dec src tmp blocks T id prev0 = some r →
      r.2 = (List.range blocks.length).filter (fun j => decide (j % T = id))) ∧
    (compress_blocks cmp tgt blocks T id prev1 = some s →
      s.2 = (List.range blocks.length).filter (fun j => decide ((j + 1) % T = id))) := by
  constructor
  · intro h
    have h2 := decompress_go_trace dec src tmp T id blocks 0 prev0 [] r h
    simpa [List.range_eq_range'] using h2
  · intro h
    have h2 := compress_go_trace cmp tgt blocks T id blocks.length prev1 [] s h
    simpa using h2

/-- Witness for the amended C4: with the concrete 2-block table and 2
workers, worker 0's decompression trace is `[0]` and its recompression
trace is `[1]`. -/
theorem c4_worker_partition_witness :
    ((2 : Nat), ([0] : List Nat)).2 =
        (List.range 2).filter (fun j => decide (j % 2 = 0)) ∧
      ((0 : Nat), ([1] : List Nat)).2 =
        (List.range 2).filter (fun j => decide ((j + 1) % 2 = 0)) :=
  ⟨(c4_worker_partition decEx cmpEx tgtEx tgtEx tgtEx blksEx 2 0 0 2
      (2, [0]) (0, [1])).1 (by decide),
   (c4_worker_partition decEx cmpEx tgtEx tgtEx tgtEx blksEx 2 0 0 2
      (2, [0]) (0, [1])).2 (by decide)⟩

/-- Claim C6: if the abstracted compressor output size for block `n` differs
from the block's declared `length`, the recompression worker assigned that
block returns null, and the worker pool — and with it the squash step —
fails; likewise for the decompression worker when the decompressor output
size differs from `uncompressed_length`. -/
theorem c6_size_mismatch_fails (cmp dec : Nat → Nat) (src tmp tgt : mmap_file)
    (blocks : List compressed_block) (T prev0 prev1 n : Nat)
    (hT : 0 < T) (hn : n < blocks.length) :
    (cmp n ≠ (blocks.getD n dblk).length →
      compress_blocks cmp tgt blocks T ((n + 1) % T) prev1 = none ∧
        run_multithreaded_success
          (fun id => compress_blocks cmp tgt blocks T id prev1) T = false) ∧
    (dec n ≠ (blocks.getD n dblk).uncompressed_length →
      decompress_blocks dec src tmp blocks T (n % T) prev0 = none ∧
        run_multithreaded_success
          (fun id => decompress_blocks dec src tmp blocks T id prev0) T = false) := by
  constructor
  · intro hne
    have hnone : compress_blocks cmp tgt blocks T ((n + 1) % T) prev1 = none := by
      cases hres : compress_blocks cmp tgt blocks T ((n + 1) % T) prev1 with
      | none => rfl
      | some r =>
        exact absurd
          (compress_go_some_sizes cmp tgt blocks T ((n + 1) % T)
            blocks.length prev1 [] r hres n hn rfl) hne
    refine ⟨hnone, ?_⟩
    apply Bool.eq_false_iff.mpr
    intro hall
    simp only [run_multithreaded_success, List.all_eq_true] at hall
    have h3 := hall ((n + 1) % T) (List.mem_range.mpr (Nat.mod_lt _ hT))
    rw [hnone] at h3
    simp at h3
  · intro hne
    have hnone : decompress_blocks dec src tmp blocks T (n % T) prev0 = none := by
      cases hres : decompress_blocks dec src tmp blocks T (n % T) prev0 with
      | none => rfl
      | some r =>
        have h3 := decompress_go_some_sizes dec src tmp T (n % T)
          blocks 0 prev0 [] r hres n hn (by rw [Nat.zero_add])
        rw [Nat.zero_add] at h3
        exact absurd h3 hne
    refine ⟨hnone, ?_⟩
    apply Bool.eq_false_iff.mpr
    intro hall
    simp only [run_multithreaded_success, List.all_eq_true] at hall
    have h3 := hall (n % T) (List.mem_range.mpr (Nat.mod_lt _ hT))
    rw [hnone] at h3
    simp at h3

/-- Witness for C6 on a one-block table whose codec stand-ins produce the
wrong sizes (4 instead of 5 compressed, 9 instead of 10 uncompressed). -/
theorem c6_size_mismatch_witness :
    (compress_blocks (fun _ => 4) tgtEx [⟨0, 5, 10⟩] 1 ((0 + 1) % 1) 10 = none ∧
      run_multithreaded_success
        (fun id => compress_blocks (fun _ => 4) tgtEx [⟨0, 5, 10⟩] 1 id 10) 1 = false) ∧
    (decompress_blocks (fun _ => 9) tgtEx tgtEx [⟨0, 5, 10⟩] 1 (0 % 1) 0 = none ∧
      run_multithreaded_success
        (fun id => decompress_blocks (fun _ => 9) tgtEx tgtEx [⟨0, 5, 10⟩] 1 id 0) 1 = false) :=
  ⟨(c6_size_mismatch_fails (fun _ => 4) (fun _ => 9) tgtEx tgtEx tgtEx
      [⟨0, 5, 10⟩] 1 0 10 0 (by decide) (by decide)).1 (by decide),
   (c6_size_mismatch_fails (fun _ => 4) (fun _ => 9) tgtEx tgtEx tgtEx
      [⟨0, 5, 10⟩] 1 0 10 0 (by decide) (by decide)).2 (by decide)⟩

/-- Claim C8: with `block_count = 0` the gap loop of `expand_input` runs zero
times and the whole source `[0, source.length)` is copied in the single tail
copy; every decompression worker still runs, performs zero block iterations
(empty trace), leaves `prev_offset` untouched and succeeds, so the pool
reports success. -/
theorem c8_zero_blocks (src : mmap_file) (tmpLen prev0 T : Nat) (dec : Nat → Nat)
    (tmpF : mmap_file) (h1 : src.length ≤ tmpLen) (h2 : tmpLen < SZ) :
    (∃ t : mmap_file,
        expand_input_copy src ⟨tmpLen, fun _ => 0⟩ [] = some (t, src.length) ∧
        ∀ j, j < src.length → t.data j = src.data j) ∧
    (∀ id, decompress_blocks dec src tmpF [] T id prev0 = some (prev0, [])) ∧
    run_multithreaded_success
      (fun id => decompress_blocks dec src tmpF [] T id prev0) T = true := by
  refine ⟨?_, fun id => rfl, ?_⟩
  · obtain ⟨t, heq, _, _, htail, _⟩ :=
      expand_input_copy_spec src tmpLen [] (by simp [chainWF]) h1 h2
    exact ⟨t, heq, fun j hj => htail j (by simp [endOff]) hj⟩
  · simp [run_multithreaded_success, decompress_blocks, decompress_go]

/-- Witness for C8 on the concrete 3-byte source with an empty block table. -/
theorem c8_zero_blocks_witness :
    (∃ t : mmap_file,
        expand_input_copy srcEx ⟨32, fun _ => 0⟩ [] = some (t, srcEx.length) ∧
        ∀ j, j < srcEx.length → t.data j = srcEx.data j) ∧
    (∀ id, decompress_blocks decEx srcEx tgtEx [] 2 id 3 = some (3, [])) ∧
    run_multithreaded_success
      (fun id => decompress_blocks decEx srcEx tgtEx [] 2 id 3) 2 = true :=
  c8_zero_blocks srcEx 32 3 2 decEx tgtEx (by decide) (by decide)

end Squashmerge
